import Mathlib

/-!
# lfct: the factorial example program (`example/factorial.c`)

A shallow embedding of the three C functions of `example/factorial.c`

```c
int factorial(int i) { return i == 0 ? 1 : factorial(i - 1) * i; }
void print(int i)    { printf("%d\n", i); fflush(stdout); }
int main(int argc, char *argv[]) {
    print(argc == 2 ? factorial(atoi(argv[1])) : -1);
    return 0;
}
```

and the properties of it that the specification states.

Modelling conventions.

* `int` is a 32-bit two's-complement integer: a value of type `Int` in
  `[INT_MIN, INT_MAX]`.  An overflowing product is reduced by `wrap` (modulo
  `2^32` into that range), the silent wraparound that the specification
  describes.
* `factorial` is recursive without a guard, so it is embedded with a bound on
  the number of nested calls (`fuel`); `none` means that no value is returned
  within the bound.  Statements that the function returns give a bound that
  suffices.
* The subtraction `i - 1` overflows at `INT_MIN` only, which a negative
  argument alone can reach.  `factorialC`, `mainC` and `runC` follow C there:
  signed overflow has no value.  `factorial`, `main` and `run` let it wrap to
  `INT_MAX` as well, the premise under which the function is total.  On the
  non-negative `int`s the two embeddings agree (`factorialC_eq_factorial`).
* Text is `String` / `List Char`; the text written to standard output is the
  result of `print`.
-/

namespace Lfct

/-! ## Machine integers -/

/-- Smallest value of a 32-bit `int`. -/
def INT_MIN : Int := -2147483648

/-- Largest value of a 32-bit `int`. -/
def INT_MAX : Int := 2147483647

/-- Reduction of a mathematical integer to the 32-bit two's-complement `int`
with the same residue modulo `2^32`. -/
def wrap (x : Int) : Int := (x + 2147483648) % 4294967296 - 2147483648

/-! ## `factorial` -/

/-- Embedding of `int factorial(int i)`:
`return i == 0 ? 1 : factorial(i - 1) * i;`
Both operations wrap; for `i - 1` that matters at `INT_MIN` only (see
`factorialC`).  The first argument bounds the number of nested calls. -/
def factorial : Nat → Int → Option Int
  | 0, _ => none
  | fuel + 1, i =>
    if i = 0 then some 1
    else (factorial fuel (wrap (i - 1))).map fun r => wrap (r * i)

/-- Embedding of `int factorial(int i)` in which the subtraction follows C:
`i - 1` below `INT_MIN` is signed overflow and has no value, so the evaluation
yields none.  The product wraps, as in `factorial`.  The first argument bounds
the number of nested calls. -/
def factorialC : Nat → Int → Option Int
  | 0, _ => none
  | fuel + 1, i =>
    if i = 0 then some 1
    else if i - 1 < INT_MIN then none
    else (factorialC fuel (i - 1)).map fun r => wrap (r * i)

/-- The arguments of the successive calls that the evaluation of
`factorial(i)` makes, the outermost first, up to `fuel` nested calls: a call on
0 is the base case and makes no further call, and no call follows an
overflowing `i - 1`. -/
def callArgs : Nat → Int → List Int
  | 0, _ => []
  | fuel + 1, i =>
    i :: (if i = 0 then [] else if i - 1 < INT_MIN then [] else callArgs fuel (i - 1))

/-! ## The C library functions the program calls -/

/-- Modelled from the spec: `isspace` of the C library in the "C" locale, the
white space that the integer parser skips: space, `\t`, `\n`, `\v`, `\f`, `\r`. -/
def isspace (c : Char) : Bool :=
  c = ' ' || c = '\t' || c = '\n' || c = '\x0b' || c = '\x0c' || c = '\r'

/-- Modelled from the spec: `isdigit` of the C library, the decimal digits. -/
def isdigit (c : Char) : Bool := '0' ≤ c && c ≤ '9'

/-- The digit-consuming loop of the integer parser: digits are accumulated in
base ten until the text ends or a character that is no digit is met. -/
def scanDigits : Int → List Char → Int
  | acc, [] => acc
  | acc, c :: cs =>
    if isdigit c then scanDigits (acc * 10 + ((c.toNat - 48 : Nat) : Int)) cs else acc

/-- Modelled from the spec: `atoi` of the C library, which is not part of the
repository.  Leading white space is skipped, one optional sign is read, digits
are consumed until a non-digit, and the value is 0 when there are no valid
digits.  The result is an `int`: a value outside its range is reduced by
`wrap`, as all other arithmetic of the model. -/
def atoi (s : String) : Int :=
  match s.toList.dropWhile isspace with
  | '-' :: cs => wrap (-(scanDigits 0 cs))
  | '+' :: cs => wrap (scanDigits 0 cs)
  | cs => wrap (scanDigits 0 cs)

/-- Decimal digits of `n`, most significant first, put in front of `acc`; the
first argument bounds the number of digits produced. -/
def natDigits : Nat → Nat → List Char → List Char
  | 0, _, acc => acc
  | fuel + 1, n, acc =>
    if n / 10 = 0 then Char.ofNat (48 + n % 10) :: acc
    else natDigits fuel (n / 10) (Char.ofNat (48 + n % 10) :: acc)

/-- Modelled from the spec: the `%d` conversion of the C library's `printf`,
which is not part of the repository: a `-` for a negative value, then the
decimal digits of the magnitude. -/
def fmtInt (v : Int) : List Char :=
  if v < 0 then '-' :: natDigits (v.natAbs + 1) v.natAbs []
  else natDigits (v.natAbs + 1) v.natAbs []

/-! ## `print` and `main` -/

/-- Embedding of `void print(int i)`: `printf("%d\n", i); fflush(stdout);`
The result is the text written to standard output. -/
def print (i : Int) : String := String.mk (fmtInt i ++ ['\n'])

/-- What a run of the program leaves behind: the text on standard output and
the exit code. -/
structure Outcome where
  /-- Text written to standard output. -/
  stdout : String
  /-- Exit code of the process, the value `main` returns. -/
  exit : Int
deriving DecidableEq

/-- Embedding of `int main(int argc, char *argv[])`:
`print(argc == 2 ? factorial(atoi(argv[1])) : -1); return 0;`
`argv` holds the program name and the arguments.  The first argument bounds
the nested calls of `factorial`; the result is `none` when that bound is too
small, or when `argv[1]` is read although `argv` has no such entry. -/
def main (fuel : Nat) (argc : Int) (argv : List String) : Option Outcome :=
  (if argc = 2 then (argv.get? 1).bind fun a => factorial fuel (atoi a)
   else some (-1)).map fun v => { stdout := print v, exit := 0 }

/-- The program started on the argument vector `argv` (program name first):
the C runtime calls `main` with `argc` the number of entries of `argv`. -/
def run (fuel : Nat) (argv : List String) : Option Outcome :=
  main fuel (argv.length : Int) argv

/-- A well-formed decimal integer: one optional sign, then one or more decimal
digits, and nothing else. -/
def isDecimalInteger (s : String) : Bool :=
  match s.toList with
  | '-' :: cs => !cs.isEmpty && cs.all isdigit
  | '+' :: cs => !cs.isEmpty && cs.all isdigit
  | cs => !cs.isEmpty && cs.all isdigit

/-- The text that is left after leading white space and one optional sign: the
place where the integer parser expects the digits. -/
def afterSign (s : String) : List Char :=
  match s.toList.dropWhile isspace with
  | '-' :: cs => cs
  | '+' :: cs => cs
  | cs => cs

/-- The number that a string of decimal digits denotes, most significant digit
first. -/
def decimalValue (ds : List Char) : Nat :=
  ds.foldl (fun a c => 10 * a + (c.toNat - 48)) 0

/-! ## Arithmetic of `wrap` -/

theorem wrap_of_range {x : Int} (h1 : INT_MIN ≤ x) (h2 : x ≤ INT_MAX) : wrap x = x := by
  unfold INT_MIN at h1
  unfold INT_MAX at h2
  unfold wrap
  rw [Int.emod_eq_of_lt (by omega) (by omega)]
  omega

theorem wrap_range (x : Int) : INT_MIN ≤ wrap x ∧ wrap x ≤ INT_MAX := by
  unfold wrap INT_MIN INT_MAX
  omega

theorem wrap_eq_wrap_iff (a b : Int) : wrap a = wrap b ↔ a % 4294967296 = b % 4294967296 := by
  unfold wrap
  omega

theorem wrap_emod (a : Int) : wrap a % 4294967296 = a % 4294967296 := by
  unfold wrap
  omega

theorem wrap_mul_left (a b : Int) : wrap (wrap a * b) = wrap (a * b) := by
  rw [wrap_eq_wrap_iff, Int.mul_emod, wrap_emod, ← Int.mul_emod]

theorem wrap_mul_right (a b : Int) : wrap (a * wrap b) = wrap (a * b) := by
  rw [wrap_eq_wrap_iff, Int.mul_emod, wrap_emod, ← Int.mul_emod]

theorem wrap_wrap (a : Int) : wrap (wrap a) = wrap a := by
  rw [wrap_eq_wrap_iff, wrap_emod]

theorem wrap_pred (a : Int) : wrap (wrap a - 1) = wrap (a - 1) := by
  rw [wrap_eq_wrap_iff, Int.sub_emod, wrap_emod, ← Int.sub_emod]

theorem wrap_eq_zero_iff (a : Int) : wrap a = 0 ↔ a % 4294967296 = 0 := by
  unfold wrap
  omega

/-! ## The value and the depth of `factorial` -/

/-- On the `int` whose unsigned reading is `u`, `factorial` returns within
`u + 1` nested calls, and the value is `u!` reduced to an `int`. -/
theorem factorial_unsigned (u : Nat) (hu : u < 4294967296) :
    factorial (u + 1) (wrap u) = some (wrap (Nat.factorial u)) := by
  induction u with
  | zero => rfl
  | succ n ih =>
    have hne : wrap ((n + 1 : Nat) : Int) ≠ 0 := by
      rw [Ne, wrap_eq_zero_iff]
      omega
    have hpred : wrap (wrap ((n + 1 : Nat) : Int) - 1) = wrap (n : Int) := by
      rw [wrap_pred]
      congr 1
      omega
    rw [factorial, if_neg hne, hpred, ih (by omega)]
    simp only [Option.map_some']
    have hfac : (Nat.factorial n : Int) * ((n + 1 : Nat) : Int) = (Nat.factorial (n + 1) : Int) := by
      rw [Nat.factorial_succ]
      push_cast
      ring
    rw [wrap_mul_left, wrap_mul_right, hfac]

/-- With at most `u` nested calls the base case is not reached. -/
theorem factorial_none (u : Nat) (hu : u < 4294967296) (fuel : Nat) (hf : fuel ≤ u) :
    factorial fuel (wrap u) = none := by
  induction fuel generalizing u with
  | zero => rfl
  | succ f ih =>
    obtain ⟨n, rfl⟩ : ∃ n, u = n + 1 := ⟨u - 1, by omega⟩
    have hne : wrap ((n + 1 : Nat) : Int) ≠ 0 := by
      rw [Ne, wrap_eq_zero_iff]
      omega
    have hpred : wrap (wrap ((n + 1 : Nat) : Int) - 1) = wrap (n : Int) := by
      rw [wrap_pred]
      congr 1
      omega
    rw [factorial, if_neg hne, hpred, ih n (by omega) (by omega)]
    rfl

/-- More nested calls than needed do not change the result. -/
theorem factorial_mono (fuel : Nat) (i v : Int) (k : Nat) (h : factorial fuel i = some v) :
    factorial (fuel + k) i = some v := by
  induction fuel generalizing i v with
  | zero => simp [factorial] at h
  | succ f ih =>
    rw [show f + 1 + k = (f + k) + 1 by omega, factorial]
    rw [factorial] at h
    by_cases h0 : i = 0
    · rw [if_pos h0] at h ⊢
      exact h
    · rw [if_neg h0] at h ⊢
      cases hr : factorial f (wrap (i - 1)) with
      | none => rw [hr] at h; simp at h
      | some r => rw [hr] at h; rw [ih _ _ hr]; exact h

/-- For a non-negative `int`, the value is `i!` reduced to an `int`. -/
theorem factorial_nonneg (n : Nat) (hn : (n : Int) ≤ INT_MAX) :
    factorial (n + 1) n = some (wrap (Nat.factorial n)) := by
  have h := factorial_unsigned n (by unfold INT_MAX at hn; omega)
  rwa [wrap_of_range (by unfold INT_MIN; omega) hn] at h

/-- Results do not depend on the bound: two bounds that both suffice agree. -/
theorem factorial_det (f1 f2 : Nat) (i v w : Int) (h1 : factorial f1 i = some v)
    (h2 : factorial f2 i = some w) : v = w := by
  have a := factorial_mono f1 i v f2 h1
  have b := factorial_mono f2 i w f1 h2
  rw [Nat.add_comm] at b
  rw [a] at b
  exact Option.some.inj b

/-- For a non-negative `int`, every bound above `i` gives `i!` reduced to an `int`. -/
theorem factorial_nonneg_fuel (n fuel : Nat) (hn : (n : Int) ≤ INT_MAX) (hf : n < fuel) :
    factorial fuel n = some (wrap (Nat.factorial n)) := by
  have h := factorial_mono (n + 1) n _ (fuel - (n + 1)) (factorial_nonneg n hn)
  rwa [show n + 1 + (fuel - (n + 1)) = fuel by omega] at h

/-- Up to 12 the mathematical factorial fits an `int`. -/
theorem factorial_le_twelve (n : Nat) (h : n ≤ 12) : (Nat.factorial n : Int) ≤ INT_MAX := by
  have h1 : Nat.factorial n ≤ Nat.factorial 12 := Nat.factorial_le h
  have h2 : Nat.factorial 12 = 479001600 := by decide
  unfold INT_MAX
  omega

/-- Every `int` is the `wrap` of its unsigned reading. -/
theorem wrap_unsigned (i : Int) (hmin : INT_MIN ≤ i) (hmax : i ≤ INT_MAX) :
    wrap (((i % 4294967296).toNat : Nat) : Int) = i := by
  unfold INT_MIN at hmin
  unfold INT_MAX at hmax
  unfold wrap
  omega

/-- From 34 on, the mathematical factorial is a multiple of `2^32`. -/
theorem factorial_emod_eq_zero (u : Nat) (hu : 34 ≤ u) :
    (Nat.factorial u : Int) % 4294967296 = 0 := by
  have h1 : Nat.factorial 34 ∣ Nat.factorial u := Nat.factorial_dvd_factorial hu
  have h2 : 4294967296 ∣ Nat.factorial 34 := by decide
  have h3 : (4294967296 : Nat) ∣ Nat.factorial u := Nat.dvd_trans h2 h1
  have h4 : ((4294967296 : Nat) : Int) ∣ (Nat.factorial u : Int) := Int.natCast_dvd_natCast.mpr h3
  exact Int.emod_eq_zero_of_dvd h4

/-- On a negative `int` the base case is out of reach for `i + 2^32` nested
calls and reached by the next one; the value is then 0. -/
theorem factorial_negative (i : Int) (hmin : INT_MIN ≤ i) (hneg : i < 0) :
    (∀ fuel : Nat, fuel ≤ (i + 4294967296).toNat → factorial fuel i = none) ∧
    factorial ((i + 4294967296).toNat + 1) i = some 0 := by
  have hmax : i ≤ INT_MAX := by unfold INT_MAX; omega
  have hu : (i % 4294967296).toNat = (i + 4294967296).toNat := by
    unfold INT_MIN at hmin
    omega
  have hw := wrap_unsigned i hmin hmax
  rw [hu] at hw
  have hlt : (i + 4294967296).toNat < 4294967296 := by omega
  constructor
  · intro fuel hf
    have h := factorial_none _ hlt fuel hf
    rwa [hw] at h
  · have h := factorial_unsigned _ hlt
    rw [hw] at h
    rw [h]
    have h34 : 34 ≤ (i + 4294967296).toNat := by
      unfold INT_MIN at hmin
      omega
    have hz : wrap (Nat.factorial (i + 4294967296).toNat : Int) = 0 :=
      (wrap_eq_zero_iff _).mpr (factorial_emod_eq_zero _ h34)
    rw [hz]

/-- In the wrapping model `factorial` returns on every `int`. -/
theorem factorial_total (i : Int) (hmin : INT_MIN ≤ i) (hmax : i ≤ INT_MAX) :
    ∃ (fuel : Nat) (v : Int), factorial fuel i = some v := by
  have h := factorial_unsigned (i % 4294967296).toNat (by omega)
  rw [wrap_unsigned i hmin hmax] at h
  exact ⟨_, _, h⟩

/-! ## Claims about `factorial` on small arguments -/

/-- C1: for every `int` `i` with `0 ≤ i ≤ 12`, `factorial(i)` returns the
mathematical factorial `i!` (with every bound of more than `i` nested calls),
and no intermediate product `factorial(k - 1) * k`, `0 < k ≤ i`, leaves the
range of `int`; in particular `factorial(0) = 1`, `factorial(5) = 120`,
`factorial(10) = 3628800` and `factorial(12) = 479001600`. -/
theorem factorial_exact_upto_12 (i : Int) (h0 : 0 ≤ i) (h12 : i ≤ 12) :
    (∀ fuel : Nat, i.toNat < fuel → factorial fuel i = some (Nat.factorial i.toNat : Int)) ∧
    (∀ k : Int, 0 < k → k ≤ i →
      ∃ r : Int, factorial k.toNat (k - 1) = some r ∧ INT_MIN ≤ r * k ∧ r * k ≤ INT_MAX) ∧
    factorial 1 0 = some 1 ∧ factorial 6 5 = some 120 ∧
    factorial 11 10 = some 3628800 ∧ factorial 13 12 = some 479001600 := by
  refine ⟨?_, ?_, by decide, by decide, by decide, by decide⟩
  · intro fuel hf
    obtain ⟨n, rfl⟩ := Int.eq_ofNat_of_zero_le h0
    have hn : n ≤ 12 := by omega
    have hmax : (n : Int) ≤ INT_MAX := by unfold INT_MAX; omega
    rw [Int.toNat_ofNat] at hf ⊢
    rw [factorial_nonneg_fuel n fuel hmax hf,
      wrap_of_range (by unfold INT_MIN; omega) (factorial_le_twelve n hn)]
  · intro k hk hki
    obtain ⟨m, rfl⟩ := Int.eq_ofNat_of_zero_le (le_of_lt hk)
    obtain ⟨n, rfl⟩ : ∃ n, m = n + 1 := ⟨m - 1, by omega⟩
    have hn : n + 1 ≤ 12 := by omega
    have hmax : (n : Int) ≤ INT_MAX := by unfold INT_MAX; omega
    refine ⟨(Nat.factorial n : Int), ?_, ?_, ?_⟩
    · rw [Int.toNat_ofNat, show ((n + 1 : Nat) : Int) - 1 = (n : Int) by push_cast; ring,
        factorial_nonneg_fuel n (n + 1) hmax (by omega),
        wrap_of_range (by unfold INT_MIN; omega) (factorial_le_twelve n (by omega))]
    · have : (0 : Int) ≤ (Nat.factorial n : Int) * ((n + 1 : Nat) : Int) := by positivity
      unfold INT_MIN
      omega
    · have h := factorial_le_twelve (n + 1) hn
      rw [Nat.factorial_succ] at h
      push_cast at h ⊢
      linarith

/-- Witness of C1 at `i = 7`, where `7! = 5040`. -/
theorem factorial_exact_upto_12_witness :
    factorial 8 7 = some 5040 ∧
    ∃ r : Int, factorial 7 6 = some r ∧ INT_MIN ≤ r * 7 ∧ r * 7 ≤ INT_MAX := by
  have h := factorial_exact_upto_12 7 (by decide) (by decide)
  exact ⟨h.1 8 (by decide), h.2.1 7 (by decide) (by decide)⟩

/-! ## Claims about overflow, negative arguments and the recurrence -/

/-- C5: for every non-negative `int` `i`, `factorial(i)` returns (with every
bound of more than `i` nested calls) without any overflow check: the value is
the `int` that is congruent to `i!` modulo `2^32`; for example
`factorial(13) = 1932053504`, while `13! = 6227020800`. -/
theorem factorial_wraps (i : Int) (h0 : 0 ≤ i) (hmax : i ≤ INT_MAX) :
    (∃ v : Int, (∀ fuel : Nat, i.toNat < fuel → factorial fuel i = some v) ∧
      INT_MIN ≤ v ∧ v ≤ INT_MAX ∧
      v % 4294967296 = (Nat.factorial i.toNat : Int) % 4294967296) ∧
    factorial 14 13 = some 1932053504 ∧ Nat.factorial 13 = 6227020800 := by
  refine ⟨?_, by decide, by decide⟩
  obtain ⟨n, rfl⟩ := Int.eq_ofNat_of_zero_le h0
  refine ⟨wrap (Nat.factorial n), ?_, (wrap_range _).1, (wrap_range _).2, ?_⟩
  · intro fuel hf
    rw [Int.toNat_ofNat] at hf
    exact factorial_nonneg_fuel n fuel hmax hf
  · rw [Int.toNat_ofNat, wrap_emod]

/-- Witness of C5 at `i = 20`: the result is `-2102132736`, the `int`
congruent to `20! = 2432902008176640000`. -/
theorem factorial_wraps_witness :
    ∃ v : Int, factorial 21 20 = some v ∧ INT_MIN ≤ v ∧ v ≤ INT_MAX ∧
      v % 4294967296 = (Nat.factorial 20 : Int) % 4294967296 := by
  obtain ⟨v, h1, h2, h3, h4⟩ := (factorial_wraps 20 (by decide) (by decide)).1
  exact ⟨v, h1 21 (by decide), h2, h3, h4⟩

/-- A value is returned only by way of the base case: a call on 0. -/
theorem callArgs_of_value (fuel : Nat) (i v : Int) (h : factorialC fuel i = some v) :
    (0 : Int) ∈ callArgs fuel i := by
  induction fuel generalizing i v with
  | zero => simp [factorialC] at h
  | succ f ih =>
    rw [factorialC] at h
    rw [callArgs]
    by_cases h0 : i = 0
    · rw [h0]
      exact List.mem_cons_self _ _
    · rw [if_neg h0] at h ⊢
      by_cases hov : i - 1 < INT_MIN
      · rw [if_pos hov] at h
        simp at h
      · rw [if_neg hov] at h ⊢
        rw [Option.map_eq_some'] at h
        obtain ⟨r, hr, _⟩ := h
        exact List.mem_cons_of_mem _ (ih (i - 1) r hr)

/-- C10: `factorial` satisfies the recurrence: `factorial(0) = 1`, and for
every `int` `i > 0` the call on `i - 1` returns some `r` and the call on `i`
returns the wrapping product `i * r`; the operand order of the code, `r * i`,
gives the same value. -/
theorem factorial_recurrence :
    (∀ fuel : Nat, factorial (fuel + 1) 0 = some 1) ∧
    (∀ i : Int, 0 < i → i ≤ INT_MAX →
      ∃ r : Int, (∀ fuel : Nat, (i - 1).toNat < fuel → factorial fuel (i - 1) = some r) ∧
        (∀ fuel : Nat, i.toNat < fuel → factorial fuel i = some (wrap (i * r))) ∧
        wrap (r * i) = wrap (i * r)) := by
  refine ⟨fun _ => rfl, ?_⟩
  intro i hpos hmax
  obtain ⟨m, rfl⟩ := Int.eq_ofNat_of_zero_le (le_of_lt hpos)
  obtain ⟨n, rfl⟩ : ∃ n, m = n + 1 := ⟨m - 1, by omega⟩
  have hn : (n : Int) ≤ INT_MAX := by
    unfold INT_MAX at hmax ⊢
    omega
  have hpred : ((n + 1 : Nat) : Int) - 1 = (n : Int) := by
    push_cast
    ring
  have hne : ((n + 1 : Nat) : Int) ≠ 0 := by omega
  have hw : wrap (((n + 1 : Nat) : Int) - 1) = (n : Int) := by
    rw [hpred]
    exact wrap_of_range (by unfold INT_MIN; omega) hn
  refine ⟨wrap (Nat.factorial n), ?_, ?_, by rw [Int.mul_comm]⟩
  · intro fuel hf
    rw [hpred] at hf ⊢
    rw [Int.toNat_ofNat] at hf
    exact factorial_nonneg_fuel n fuel hn hf
  · intro fuel hf
    rw [Int.toNat_ofNat] at hf
    obtain ⟨f, rfl⟩ : ∃ f, fuel = f + 1 := ⟨fuel - 1, by omega⟩
    rw [factorial, if_neg hne, hw, factorial_nonneg_fuel n f hn (by omega), Option.map_some',
      Int.mul_comm]

/-- Witness of C10 at `i = 5`: `factorial(4) = 24` and `factorial(5) = 5 * 24`. -/
theorem factorial_recurrence_witness :
    ∃ r : Int, factorial 5 4 = some r ∧ factorial 6 5 = some (wrap (5 * r)) ∧
      wrap (r * 5) = wrap (5 * r) := by
  obtain ⟨r, h1, h2, h3⟩ := factorial_recurrence.2 5 (by decide) (by decide)
  exact ⟨r, h1 5 (by decide), h2 6 (by decide), h3⟩

/-! ## The text that `print` writes -/

theorem digit_char : ∀ d : Nat, d < 10 →
    isdigit (Char.ofNat (48 + d)) = true ∧ (Char.ofNat (48 + d)).toNat - 48 = d ∧
    (Char.ofNat (48 + d) = '0' → d = 0) := by
  decide

theorem isdigit_ne_newline (c : Char) (h : isdigit c = true) : c ≠ '\n' := by
  intro hc
  subst hc
  revert h
  decide

theorem isdigit_ne_minus (c : Char) (h : isdigit c = true) : c ≠ '-' := by
  intro hc
  subst hc
  revert h
  decide

theorem decimalValue_append_singleton (ds : List Char) (c : Char) :
    decimalValue (ds ++ [c]) = 10 * decimalValue ds + (c.toNat - 48) := by
  unfold decimalValue
  rw [List.foldl_append]
  rfl

/-- The digits that `natDigits` puts in front of `acc`: a non-empty string of
decimal digits that denotes `n` and has no leading zero. -/
theorem natDigits_spec (fuel n : Nat) (acc : List Char) (h : n < fuel) :
    ∃ ds : List Char, natDigits fuel n acc = ds ++ acc ∧ ds ≠ [] ∧
      (∀ c ∈ ds, isdigit c = true) ∧ decimalValue ds = n ∧
      (ds.head? = some '0' → ds = ['0']) := by
  induction fuel generalizing n acc with
  | zero => omega
  | succ f ih =>
    have hd := digit_char (n % 10) (Nat.mod_lt n (by decide))
    by_cases hq : n / 10 = 0
    · have hn : n % 10 = n := by omega
      refine ⟨[Char.ofNat (48 + n % 10)], ?_, by simp, ?_, ?_, ?_⟩
      · rw [natDigits, if_pos hq]
        rfl
      · intro c hc
        rw [List.mem_singleton] at hc
        rw [hc]
        exact hd.1
      · show 10 * 0 + ((Char.ofNat (48 + n % 10)).toNat - 48) = n
        rw [hd.2.1]
        omega
      · intro hh
        have h0 : Char.ofNat (48 + n % 10) = '0' := by
          simpa using hh
        rw [h0]
    · obtain ⟨ds, h1, h2, h3, h4, h5⟩ :=
        ih (n / 10) (Char.ofNat (48 + n % 10) :: acc) (by omega)
      refine ⟨ds ++ [Char.ofNat (48 + n % 10)], ?_, by simp, ?_, ?_, ?_⟩
      · rw [natDigits, if_neg hq, h1]
        simp
      · intro c hc
        rw [List.mem_append, List.mem_singleton] at hc
        rcases hc with hc | hc
        · exact h3 c hc
        · rw [hc]
          exact hd.1
      · rw [decimalValue_append_singleton, h4, hd.2.1]
        omega
      · intro hh
        exfalso
        cases ds with
        | nil => exact h2 rfl
        | cons d ds =>
          have hz : (d :: ds) = ['0'] := h5 (by simpa using hh)
          rw [hz] at h4
          have h4' : (0 : Nat) = n / 10 := h4
          omega

/-- The `%d` rendering: a `-` exactly for a negative value, then a non-empty
string of decimal digits without leading zero that denotes the magnitude. -/
theorem fmtInt_spec (v : Int) :
    ∃ ds : List Char, fmtInt v = (if v < 0 then ['-'] else []) ++ ds ∧ ds ≠ [] ∧
      (∀ c ∈ ds, isdigit c = true) ∧ decimalValue ds = v.natAbs ∧
      (ds.head? = some '0' → ds = ['0']) := by
  obtain ⟨ds, h1, h2, h3, h4, h5⟩ := natDigits_spec (v.natAbs + 1) v.natAbs [] (by omega)
  rw [List.append_nil] at h1
  refine ⟨ds, ?_, h2, h3, h4, h5⟩
  unfold fmtInt
  by_cases hv : v < 0
  · rw [if_pos hv, if_pos hv, h1]
    rfl
  · rw [if_neg hv, if_neg hv, h1]
    rfl

/-- Only the value `-1` is written as `-1`. -/
theorem print_eq_minus_one (v : Int) (h : print v = "-1\n") : v = -1 := by
  obtain ⟨ds, h1, _, h3, h4, _⟩ := fmtInt_spec v
  have hl : fmtInt v ++ ['\n'] = ['-', '1'] ++ ['\n'] := by
    have := congrArg String.toList h
    exact this
  have hf : fmtInt v = ['-', '1'] := List.append_cancel_right hl
  rw [hf] at h1
  by_cases hv : v < 0
  · rw [if_pos hv] at h1
    have hds : ds = ['1'] := by
      have := List.cons.inj h1
      exact this.2.symm
    rw [hds] at h4
    have h4' : (1 : Nat) = v.natAbs := h4
    omega
  · rw [if_neg hv, List.nil_append] at h1
    have hm : isdigit '-' = true := h3 '-' (by rw [← h1]; simp)
    exact absurd hm (by decide)

/-- C8: for every `int` value `v`, `print` writes one line: a `-` exactly when
`v < 0`, then the decimal digits of the magnitude of `v` (at least one digit,
no leading zero), then one newline; that newline ends the text and is the only
one in it. -/
theorem print_one_canonical_line (v : Int) :
    ∃ ds : List Char,
      (print v).toList = (if v < 0 then ['-'] else []) ++ ds ++ ['\n'] ∧
      ds ≠ [] ∧ (∀ c ∈ ds, isdigit c = true) ∧ (ds.head? = some '0' → ds = ['0']) ∧
      decimalValue ds = v.natAbs ∧
      (print v).toList.getLast? = some '\n' ∧ (print v).toList.count '\n' = 1 := by
  obtain ⟨ds, h1, h2, h3, h4, h5⟩ := fmtInt_spec v
  have hp : (print v).toList = (if v < 0 then ['-'] else []) ++ ds ++ ['\n'] := by
    show fmtInt v ++ ['\n'] = _
    rw [h1]
  refine ⟨ds, hp, h2, h3, h5, h4, ?_, ?_⟩
  · rw [hp, List.getLast?_append]
    rfl
  · have hds : ds.count '\n' = 0 := by
      rw [List.count_eq_zero]
      intro hmem
      exact isdigit_ne_newline _ (h3 _ hmem) rfl
    rw [hp, List.count_append, List.count_append, hds]
    by_cases hv : v < 0
    · rw [if_pos hv]
      decide
    · rw [if_neg hv]
      decide

/-! ## Claims about `main` -/

theorem run_one_argument (fuel : Nat) (prog a : String) :
    run fuel [prog, a] =
      (factorial fuel (atoi a)).map fun v => { stdout := print v, exit := 0 } := rfl

theorem main_of_ne_two (fuel : Nat) (argc : Int) (argv : List String) (h : argc ≠ 2) :
    main fuel argc argv = some { stdout := "-1\n", exit := 0 } := by
  unfold main
  rw [if_neg h]
  decide

/-- C2: when the argument count is not exactly one (`argc != 2`), `main` calls
`factorial` not at all (a bound of zero nested calls suffices, as does any
other) and writes exactly `-1` and a newline, whatever the arguments contain. -/
theorem wrong_argc_prints_minus_one (argc : Int) (argv : List String) (h : argc ≠ 2)
    (fuel : Nat) :
    main fuel argc argv = some { stdout := "-1\n", exit := 0 } ∧
    main 0 argc argv = some { stdout := "-1\n", exit := 0 } ∧
    (argc = (argv.length : Int) → run fuel argv = some { stdout := "-1\n", exit := 0 }) := by
  refine ⟨main_of_ne_two fuel argc argv h, main_of_ne_two 0 argc argv h, ?_⟩
  intro hlen
  unfold run
  rw [← hlen]
  exact main_of_ne_two fuel argc argv h

/-- Witness of C2: no argument, and three arguments. -/
theorem wrong_argc_prints_minus_one_witness :
    run 0 ["factorial"] = some { stdout := "-1\n", exit := 0 } ∧
    run 0 ["factorial", "5", "abc", "-7"] = some { stdout := "-1\n", exit := 0 } :=
  ⟨(wrong_argc_prints_minus_one 1 ["factorial"] (by decide) 0).2.2 rfl,
   (wrong_argc_prints_minus_one 4 ["factorial", "5", "abc", "-7"] (by decide) 0).2.2 rfl⟩

/-- The parser reads the rendering of a small number back. -/
theorem atoi_fmtInt_small (n : Nat) (hn : n ≤ 12) : atoi (String.mk (fmtInt n)) = n := by
  interval_cases n <;> decide

/-- C3: with exactly one argument that is the decimal representation of an
integer `n`, `0 ≤ n ≤ 12`, the program writes the base-10 representation of
`n!` followed by one newline (and exits with 0), for every bound of more than
`n` nested calls. -/
theorem one_numeric_argument_prints_factorial (n : Nat) (hn : n ≤ 12) (prog : String)
    (fuel : Nat) (hf : n < fuel) :
    run fuel [prog, String.mk (fmtInt n)] =
      some { stdout := String.mk (fmtInt (Nat.factorial n) ++ ['\n']), exit := 0 } := by
  have hmax : (n : Int) ≤ INT_MAX := by unfold INT_MAX; omega
  rw [run_one_argument, atoi_fmtInt_small n hn, factorial_nonneg_fuel n fuel hmax hf,
    wrap_of_range (by unfold INT_MIN; omega) (factorial_le_twelve n hn)]
  rfl

/-- Witness of C3: the argument `5` gives the line `120`. -/
theorem one_numeric_argument_prints_factorial_witness :
    run 6 ["factorial", "5"] = some { stdout := "120\n", exit := 0 } :=
  one_numeric_argument_prints_factorial 5 (by decide) "factorial" 6 (by decide)

/-- C4, as stated, fails: the argument `5abc` is not a well-formed decimal
integer, yet it is parsed as 5, not 0, and the program writes `120`, not `1`. -/
theorem malformed_argument_counterexample :
    isDecimalInteger "5abc" = false ∧ atoi "5abc" = 5 ∧
    run 6 ["factorial", "5abc"] = some { stdout := "120\n", exit := 0 } := by
  decide

theorem scanDigits_no_digit (cs : List Char) (h : ∀ c ∈ cs.head?, isdigit c = false) :
    scanDigits 0 cs = 0 := by
  cases cs with
  | nil => rfl
  | cons c cs =>
    have hc : isdigit c = false := h c (by simp)
    simp [scanDigits, hc]

/-- C4, amended: with exactly one argument that has no digit where the parser
expects one (after leading white space and one optional sign the text ends or
goes on with a character that is no digit, as in `abc`), the argument is parsed
as 0 and the program writes `1` and a newline. -/
theorem argument_without_digits_prints_one (a : String)
    (h : ∀ c ∈ (afterSign a).head?, isdigit c = false) :
    atoi a = 0 ∧
    ∀ (prog : String) (fuel : Nat), 0 < fuel →
      run fuel [prog, a] = some { stdout := "1\n", exit := 0 } := by
  have h0 : atoi a = 0 := by
    unfold afterSign at h
    unfold atoi
    split
    · next cs heq =>
      rw [heq] at h
      rw [scanDigits_no_digit cs h]
      decide
    · next cs heq =>
      rw [heq] at h
      rw [scanDigits_no_digit cs h]
      decide
    · next cs h1 h2 =>
      have h' : ∀ c ∈ (List.dropWhile isspace a.toList).head?, isdigit c = false := by
        revert h
        split
        · next cs heq => exact absurd heq (h1 cs)
        · next cs heq => exact absurd heq (h2 cs)
        · exact id
      rw [scanDigits_no_digit _ h']
      decide
  refine ⟨h0, ?_⟩
  intro prog fuel hf
  obtain ⟨f, rfl⟩ : ∃ f, fuel = f + 1 := ⟨fuel - 1, by omega⟩
  rw [run_one_argument, h0]
  rfl

/-- Witness of C4, amended: the arguments `abc` and ` -x1`. -/
theorem argument_without_digits_prints_one_witness :
    (atoi "abc" = 0 ∧ run 1 ["factorial", "abc"] = some { stdout := "1\n", exit := 0 }) ∧
    (atoi " -x1" = 0 ∧ run 1 ["factorial", " -x1"] = some { stdout := "1\n", exit := 0 }) :=
  ⟨⟨(argument_without_digits_prints_one "abc" (by decide)).1,
    (argument_without_digits_prints_one "abc" (by decide)).2 "factorial" 1 (by decide)⟩,
   ⟨(argument_without_digits_prints_one " -x1" (by decide)).1,
    (argument_without_digits_prints_one " -x1" (by decide)).2 "factorial" 1 (by decide)⟩⟩

theorem atoi_range (a : String) : INT_MIN ≤ atoi a ∧ atoi a ≤ INT_MAX := by
  unfold atoi
  split <;> exact wrap_range _

/-- On a non-negative `int`, `factorial` never returns `-1`. -/
theorem factorial_ne_minus_one (i : Int) (h0 : 0 ≤ i) (hmax : i ≤ INT_MAX) (fuel : Nat)
    (v : Int) (h : factorial fuel i = some v) : v ≠ -1 := by
  obtain ⟨n, rfl⟩ := Int.eq_ofNat_of_zero_le h0
  have hv : v = wrap (Nat.factorial n) := factorial_det _ _ _ _ _ h (factorial_nonneg n hmax)
  rw [hv]
  rcases Nat.lt_or_ge n 2 with hn | hn
  · have h1 : Nat.factorial n = 1 := by
      interval_cases n <;> rfl
    rw [h1]
    decide
  · have h2 : 2 ∣ Nat.factorial n := Nat.dvd_factorial (by decide) hn
    have h3 : (Nat.factorial n : Int) % 2 = 0 := by omega
    unfold wrap
    omega

/-- C9: the sentinel is unambiguous.  On a non-negative `int`, `factorial`
(with wrapping arithmetic) never returns `-1`; a run with exactly one argument
whose parsed value is non-negative returns and does not write `-1`; so a run
whose argument, if it has exactly one, parses to a non-negative value writes
`-1` only when it has not exactly one argument. -/
theorem sentinel_unambiguous :
    (∀ (i : Int) (fuel : Nat) (v : Int), 0 ≤ i → i ≤ INT_MAX →
      factorial fuel i = some v → v ≠ -1) ∧
    (∀ prog a : String, 0 ≤ atoi a →
      (∃ (fuel : Nat) (out : Outcome), run fuel [prog, a] = some out) ∧
      ∀ (fuel : Nat) (out : Outcome), run fuel [prog, a] = some out →
        out.stdout ≠ "-1\n") ∧
    (∀ (argv : List String) (fuel : Nat) (out : Outcome),
      (∀ a : String, argv.get? 1 = some a → 0 ≤ atoi a) →
      run fuel argv = some out → out.stdout = "-1\n" → argv.length ≠ 2) := by
  have one : ∀ (prog a : String) (fuel : Nat) (out : Outcome), 0 ≤ atoi a →
      run fuel [prog, a] = some out → out.stdout ≠ "-1\n" := by
    intro prog a fuel out ha hrun hout
    rw [run_one_argument, Option.map_eq_some'] at hrun
    obtain ⟨v, hv, rfl⟩ := hrun
    exact factorial_ne_minus_one (atoi a) ha (atoi_range a).2 fuel v hv
      (print_eq_minus_one v hout)
  refine ⟨fun i fuel v h0 hmax h => factorial_ne_minus_one i h0 hmax fuel v h, ?_, ?_⟩
  · intro prog a ha
    refine ⟨?_, fun fuel out hrun => one prog a fuel out ha hrun⟩
    obtain ⟨fuel, v, hv⟩ := factorial_total (atoi a) (atoi_range a).1 (atoi_range a).2
    exact ⟨fuel, { stdout := print v, exit := 0 }, by rw [run_one_argument, hv]; rfl⟩
  · intro argv fuel out hpos hrun hout hlen
    obtain ⟨prog, a, rfl⟩ := List.length_eq_two.mp hlen
    exact one prog a fuel out (hpos a rfl) hrun hout

/-- Witness of C9: `factorial(3) = 6`, and the run on the argument `13`, whose
factorial overflows, writes `1932053504`. -/
theorem sentinel_unambiguous_witness :
    (6 : Int) ≠ -1 ∧
    run 14 ["factorial", "13"] = some { stdout := "1932053504\n", exit := 0 } ∧
    ("1932053504\n" : String) ≠ "-1\n" :=
  ⟨sentinel_unambiguous.1 3 4 6 (by decide) (by decide) (by decide),
   by decide,
   (sentinel_unambiguous.2.1 "factorial" "13" (by decide)).2 14
     { stdout := "1932053504\n", exit := 0 } (by decide)⟩

/-! ## Tightness of the bound 12, collapse to zero, and totality -/

/-- From 13 on the mathematical factorial exceeds `INT_MAX`. -/
theorem factorial_gt_int_max (n : Nat) (h : 13 ≤ n) : INT_MAX < (Nat.factorial n : Int) := by
  have h1 : Nat.factorial 13 ≤ Nat.factorial n := Nat.factorial_le h
  have h2 : Nat.factorial 13 = 6227020800 := by decide
  unfold INT_MAX
  omega

/-- C11: the bound 12 is tight.  For every `int` `i ≥ 13` the mathematical
value `i!` exceeds `INT_MAX`, and `factorial(i)` returns a value different
from `i!`; so among the non-negative `int`s, `factorial` returns the
mathematically correct value exactly for `i ≤ 12`, and 12 is the largest such
input. -/
theorem bound_twelve_is_tight :
    (∀ i : Int, 13 ≤ i → i ≤ INT_MAX →
      INT_MAX < (Nat.factorial i.toNat : Int) ∧
      (∃ v : Int, factorial (i.toNat + 1) i = some v) ∧
      ∀ (fuel : Nat) (v : Int), factorial fuel i = some v →
        v ≠ (Nat.factorial i.toNat : Int)) ∧
    (∀ i : Int, 0 ≤ i → i ≤ INT_MAX →
      ((∃ fuel : Nat, factorial fuel i = some (Nat.factorial i.toNat : Int)) ↔ i ≤ 12)) ∧
    factorial 13 12 = some (Nat.factorial 12 : Int) := by
  have big : ∀ (n : Nat), 13 ≤ n → (n : Int) ≤ INT_MAX → ∀ (fuel : Nat) (v : Int),
      factorial fuel n = some v → v ≠ (Nat.factorial n : Int) := by
    intro n hn hmax fuel v hv heq
    have hw : v = wrap (Nat.factorial n) := factorial_det _ _ _ _ _ hv (factorial_nonneg n hmax)
    have hr := (wrap_range (Nat.factorial n)).2
    rw [← hw, heq] at hr
    exact absurd hr (not_le.mpr (factorial_gt_int_max n hn))
  refine ⟨?_, ?_, by decide⟩
  · intro i h13 hmax
    obtain ⟨n, rfl⟩ := Int.eq_ofNat_of_zero_le (by omega : (0 : Int) ≤ i)
    rw [Int.toNat_ofNat]
    exact ⟨factorial_gt_int_max n (by omega), ⟨_, factorial_nonneg n hmax⟩,
      big n (by omega) hmax⟩
  · intro i h0 hmax
    obtain ⟨n, rfl⟩ := Int.eq_ofNat_of_zero_le h0
    rw [Int.toNat_ofNat]
    constructor
    · rintro ⟨fuel, hf⟩
      by_contra hgt
      exact big n (by omega) hmax fuel _ hf rfl
    · intro h12
      have hn : n ≤ 12 := by omega
      refine ⟨n + 1, ?_⟩
      rw [factorial_nonneg n hmax,
        wrap_of_range (by unfold INT_MIN; omega) (factorial_le_twelve n hn)]

/-- Witness of C11 at `i = 13`: `13! = 6227020800` exceeds `INT_MAX`, and the
returned value `1932053504` differs from it. -/
theorem bound_twelve_is_tight_witness :
    INT_MAX < (Nat.factorial 13 : Int) ∧ factorial 14 13 = some 1932053504 ∧
    (1932053504 : Int) ≠ (Nat.factorial 13 : Int) :=
  ⟨(bound_twelve_is_tight.1 13 (by decide) (by decide)).1,
   by decide,
   (bound_twelve_is_tight.1 13 (by decide) (by decide)).2.2 14 1932053504 (by decide)⟩

/-- C13: with `int` arithmetic wrapping modulo `2^32`, `factorial` is total.
For every `int` `i` the recursion reaches the base case after finitely many
recursive calls: exactly `i` of them for `i ≥ 0` and exactly `2^32 - |i|` for
`i < 0` (one nested call more returns a value, that many do not); and for
every negative `i` the value returned is 0. -/
theorem factorial_is_total_when_wrapping (i : Int) (hmin : INT_MIN ≤ i) (hmax : i ≤ INT_MAX) :
    (0 ≤ i →
      (∃ v : Int, factorial (i.toNat + 1) i = some v) ∧
      ∀ fuel : Nat, fuel ≤ i.toNat → factorial fuel i = none) ∧
    (i < 0 →
      factorial ((4294967296 - i.natAbs) + 1) i = some 0 ∧
      ∀ fuel : Nat, fuel ≤ 4294967296 - i.natAbs → factorial fuel i = none) := by
  constructor
  · intro h0
    obtain ⟨n, rfl⟩ := Int.eq_ofNat_of_zero_le h0
    rw [Int.toNat_ofNat]
    have hlt : n < 4294967296 := by
      unfold INT_MAX at hmax
      omega
    have hw : wrap (n : Int) = (n : Int) := wrap_of_range hmin hmax
    refine ⟨⟨_, factorial_nonneg n hmax⟩, ?_⟩
    intro fuel hf
    have h := factorial_none n hlt fuel hf
    rwa [hw] at h
  · intro hneg
    have hn : 4294967296 - i.natAbs = (i + 4294967296).toNat := by
      unfold INT_MIN at hmin
      omega
    rw [hn]
    exact ⟨(factorial_negative i hmin hneg).2, (factorial_negative i hmin hneg).1⟩

/-- Witness of C13 at `i = 3` (3 recursive calls) and at `i = -5`
(`2^32 - 5` recursive calls, value 0). -/
theorem factorial_is_total_when_wrapping_witness :
    ((∃ v : Int, factorial 4 3 = some v) ∧ factorial 3 3 = none) ∧
    (factorial 4294967292 (-5) = some 0 ∧ factorial 4294967291 (-5) = none) :=
  ⟨⟨((factorial_is_total_when_wrapping 3 (by decide) (by decide)).1 (by decide)).1,
    ((factorial_is_total_when_wrapping 3 (by decide) (by decide)).1 (by decide)).2 3
      (by decide)⟩,
   ⟨((factorial_is_total_when_wrapping (-5) (by decide) (by decide)).2 (by decide)).1,
    ((factorial_is_total_when_wrapping (-5) (by decide) (by decide)).2 (by decide)).2
      4294967291 (by decide)⟩⟩

/-! ## The parser on decimal text -/

theorem isdigit_ne_plus (c : Char) (h : isdigit c = true) : c ≠ '+' := by
  intro hc
  subst hc
  revert h
  decide

theorem isdigit_not_isspace (c : Char) (h : isdigit c = true) : isspace c = false := by
  cases hs : isspace c with
  | false => rfl
  | true =>
    exfalso
    simp only [isspace, Bool.or_eq_true, decide_eq_true_eq] at hs
    rcases hs with ((((hc | hc) | hc) | hc) | hc) | hc <;>
    · subst hc
      revert h
      decide

/-- On a string of digits the parser's loop computes the number it denotes. -/
theorem scanDigits_digits (ds : List Char) (hd : ∀ c ∈ ds, isdigit c = true) (a : Nat) :
    scanDigits (a : Int) ds =
      ((ds.foldl (fun a c => 10 * a + (c.toNat - 48)) a : Nat) : Int) := by
  induction ds generalizing a with
  | nil => rfl
  | cons c cs ih =>
    have hc : isdigit c = true := hd c (List.mem_cons_self c cs)
    have hcast : (a : Int) * 10 + ((c.toNat - 48 : Nat) : Int) =
        ((10 * a + (c.toNat - 48) : Nat) : Int) := by
      push_cast
      ring
    rw [scanDigits, if_pos hc, hcast, ih (fun d hmem => hd d (List.mem_cons_of_mem c hmem))]
    rfl

/-- A non-empty string of digits is parsed as the number it denotes, reduced to
an `int`. -/
theorem atoi_digits (ds : List Char) (hne : ds ≠ []) (hd : ∀ c ∈ ds, isdigit c = true) :
    atoi (String.mk ds) = wrap (decimalValue ds) := by
  cases ds with
  | nil => exact absurd rfl hne
  | cons c cs =>
    have hc : isdigit c = true := hd c (List.mem_cons_self c cs)
    have hdrop : List.dropWhile isspace (c :: cs) = c :: cs := by
      rw [List.dropWhile_cons, isdigit_not_isspace c hc]
      rfl
    have hval := scanDigits_digits (c :: cs) hd 0
    unfold atoi
    show (match List.dropWhile isspace (c :: cs) with
      | '-' :: cs => wrap (-(scanDigits 0 cs))
      | '+' :: cs => wrap (scanDigits 0 cs)
      | cs => wrap (scanDigits 0 cs)) = _
    rw [hdrop]
    split
    · next cs2 heq => exact absurd (List.cons.inj heq).1 (isdigit_ne_minus c hc)
    · next cs2 heq => exact absurd (List.cons.inj heq).1 (isdigit_ne_plus c hc)
    · rw [show ((0 : Int)) = ((0 : Nat) : Int) from rfl, hval]
      rfl

/-- The parser reads the `%d` rendering of a non-negative `int` back. -/
theorem atoi_fmtInt (n : Nat) (hmax : (n : Int) ≤ INT_MAX) :
    atoi (String.mk (fmtInt n)) = n := by
  obtain ⟨ds, h1, h2, h3, h4, _⟩ := fmtInt_spec (n : Int)
  rw [if_neg (by omega), List.nil_append] at h1
  rw [h1, atoi_digits ds h2 h3, h4, Int.natAbs_ofNat]
  exact wrap_of_range (by unfold INT_MIN; omega) hmax

/-- From 34 on, `factorial` returns 0. -/
theorem factorial_ge_34 (n fuel : Nat) (h34 : 34 ≤ n) (hmax : (n : Int) ≤ INT_MAX)
    (hf : n < fuel) : factorial fuel n = some 0 := by
  rw [factorial_nonneg_fuel n fuel hmax hf,
    (wrap_eq_zero_iff _).mpr (factorial_emod_eq_zero n h34)]

/-! ## Collapse to zero, and what the output depends on -/

/-- C12, as stated, fails in its last clause: the argument `4294967301` is
numeric and denotes a number from 34 on, but it is beyond `INT_MAX`; it is
parsed as the `int` 5, and the program writes `120`, not `0`. -/
theorem numeric_argument_beyond_int_max_counterexample :
    isDecimalInteger "4294967301" = true ∧
    34 ≤ decimalValue "4294967301".toList ∧
    atoi "4294967301" = 5 ∧
    run 6 ["factorial", "4294967301"] = some { stdout := "120\n", exit := 0 } := by
  decide

/-- C12, amended: under 32-bit wraparound `factorial` collapses to zero.  For
every `int` `i` with `34 ≤ i ≤ INT_MAX`, `factorial(i) = 0`, while
`factorial(33) = -2147483648 = INT_MIN` is the last result that is not zero; so
the program writes `0` for every one argument that parses to an `int` from 34
on, as the decimal text of every `n` with `34 ≤ n ≤ INT_MAX` does. -/
theorem factorial_collapses_to_zero :
    (∀ (i : Int) (fuel : Nat), 34 ≤ i → i ≤ INT_MAX → i.toNat < fuel →
      factorial fuel i = some 0) ∧
    (factorial 34 33 = some INT_MIN ∧ INT_MIN = -2147483648) ∧
    (∀ (prog a : String) (fuel : Nat), 34 ≤ atoi a → (atoi a).toNat < fuel →
      run fuel [prog, a] = some { stdout := "0\n", exit := 0 }) ∧
    (∀ (n : Nat) (prog : String) (fuel : Nat), 34 ≤ n → (n : Int) ≤ INT_MAX → n < fuel →
      run fuel [prog, String.mk (fmtInt n)] = some { stdout := "0\n", exit := 0 }) := by
  have zero : ∀ (i : Int) (fuel : Nat), 34 ≤ i → i ≤ INT_MAX → i.toNat < fuel →
      factorial fuel i = some 0 := by
    intro i fuel h34 hmax hf
    obtain ⟨n, rfl⟩ := Int.eq_ofNat_of_zero_le (by omega : (0 : Int) ≤ i)
    rw [Int.toNat_ofNat] at hf
    exact factorial_ge_34 n fuel (by omega) hmax hf
  have arg : ∀ (prog a : String) (fuel : Nat), 34 ≤ atoi a → (atoi a).toNat < fuel →
      run fuel [prog, a] = some { stdout := "0\n", exit := 0 } := by
    intro prog a fuel h34 hf
    rw [run_one_argument, zero (atoi a) fuel h34 (atoi_range a).2 hf]
    rfl
  refine ⟨zero, ⟨?_, rfl⟩, arg, ?_⟩
  · have h : factorial (33 + 1) ((33 : Nat) : Int) = some (wrap (Nat.factorial 33)) :=
      factorial_nonneg 33 (by decide)
    have hv : wrap (Nat.factorial 33) = INT_MIN := by decide
    rw [hv] at h
    exact h
  · intro n prog fuel h34 hmax hf
    have ha := atoi_fmtInt n hmax
    refine arg prog _ fuel (by rw [ha]; omega) ?_
    rw [ha, Int.toNat_ofNat]
    exact hf

/-- Witness of C12, amended: `factorial(34) = 0`, and the arguments `34` and `100`
make the program write `0`. -/
theorem factorial_collapses_to_zero_witness :
    factorial 35 34 = some 0 ∧
    run 35 ["factorial", "34"] = some { stdout := "0\n", exit := 0 } ∧
    run 101 ["factorial", "100"] = some { stdout := "0\n", exit := 0 } :=
  ⟨factorial_collapses_to_zero.1 34 35 (by decide) (by decide) (by decide),
   factorial_collapses_to_zero.2.2.1 "factorial" "34" 35 (by decide) (by decide),
   factorial_collapses_to_zero.2.2.2 100 "factorial" 101 (by decide) (by decide) (by decide)⟩

/-- C14: the output is a function of the argument count and of the parsed
first argument only.  Two runs with exactly one argument each whose texts
parse to the same `int` give the same result, whatever the program names; the
entry `argv[0]` never influences the result; and two argument vectors of equal
length whose first arguments, if there is exactly one, parse alike give the
same result.  For example `5`, ` 5`, `+5` and `5abc` all give the line `120`. -/
theorem output_depends_on_count_and_parsed_argument :
    (∀ (fuel : Nat) (p1 p2 a1 a2 : String), atoi a1 = atoi a2 →
      run fuel [p1, a1] = run fuel [p2, a2]) ∧
    (∀ (fuel : Nat) (p q : String) (rest : List String),
      run fuel (p :: rest) = run fuel (q :: rest)) ∧
    (∀ (fuel : Nat) (argv1 argv2 : List String), argv1.length = argv2.length →
      (argv1.length = 2 → ∀ a1 a2 : String, argv1.get? 1 = some a1 →
        argv2.get? 1 = some a2 → atoi a1 = atoi a2) →
      run fuel argv1 = run fuel argv2) ∧
    (run 6 ["factorial", "5"] = some { stdout := "120\n", exit := 0 } ∧
     run 6 ["factorial", " 5"] = some { stdout := "120\n", exit := 0 } ∧
     run 6 ["factorial", "+5"] = some { stdout := "120\n", exit := 0 } ∧
     run 6 ["factorial", "5abc"] = some { stdout := "120\n", exit := 0 }) := by
  have same : ∀ (fuel : Nat) (p1 p2 a1 a2 : String), atoi a1 = atoi a2 →
      run fuel [p1, a1] = run fuel [p2, a2] := by
    intro fuel p1 p2 a1 a2 h
    rw [run_one_argument, run_one_argument, h]
  refine ⟨same, fun fuel p q rest => rfl, ?_, by decide, by decide, by decide, by decide⟩
  intro fuel argv1 argv2 hlen hparse
  by_cases h2 : argv1.length = 2
  · obtain ⟨p1, a1, rfl⟩ := List.length_eq_two.mp h2
    obtain ⟨p2, a2, rfl⟩ := List.length_eq_two.mp (hlen ▸ h2)
    exact same fuel p1 p2 a1 a2 (hparse h2 a1 a2 rfl rfl)
  · have h1 : ((argv1.length : Nat) : Int) ≠ 2 := by omega
    have h2' : ((argv2.length : Nat) : Int) ≠ 2 := by omega
    unfold run
    rw [main_of_ne_two fuel _ argv1 h1, main_of_ne_two fuel _ argv2 h2']

/-- Witness of C14: the arguments `7` and `  +7xyz` parse alike, so the runs,
under different program names, agree. -/
theorem output_depends_on_count_and_parsed_argument_witness :
    atoi "7" = atoi "  +7xyz" ∧
    run 8 ["factorial", "7"] = run 8 ["./a.out", "  +7xyz"] :=
  ⟨by decide,
   output_depends_on_count_and_parsed_argument.1 8 "factorial" "./a.out" "7" "  +7xyz"
     (by decide)⟩

end Lfct
